import Mathlib

/-!
# Verification of the CodeKnife object/event kernel

Shallow embedding of the reflective object kernel of the CodeKnife
repository: the meta-object descriptors (`src/include/meta_object.hpp`,
`src/src/cobject/meta_object.cpp`), the connection manager
(`src/src/connection_manager.cpp`), the object kernel
(`src/src/cobject/cobject.cpp`), the posted-event queue
(`src/src/cobject/capplication.cpp`) and the GLib timer source
(`src/src/cobject/event_dispatcher_linux.cpp`), together with proofs of
the specified properties.
-/

namespace CodeKnife

/-! ## Meta-object model (`meta_object.hpp` / `meta_object.cpp`)

A `MetaObject` is a per-class descriptor with an optional parent
descriptor.  We represent a descriptor as its most-derived class level
together with the list of ancestor levels (the parent chain flattened),
so that the C++ parent pointer becomes the tail of the `ancestors` list.
Pointer equality of descriptors is structural equality of chains.
Methods and signals are kept by name (the invoker closures play no role
in the verified properties); properties keep name and type tag, which is
what the generated `PROPERTY` getter/setter pair dispatches on. -/

/-- A meta-property: name and type tag (`MetaProperty` in `meta_object.hpp`). -/
structure MetaProperty where
  name : String
  typeName : String
deriving DecidableEq, Repr

/-- One class level of a descriptor chain: class name plus the three
ordered member lists registered for that class. -/
structure ClassLevel where
  className : String
  properties : List MetaProperty
  methods : List String
  signals : List String
deriving DecidableEq, Repr

/-- A class descriptor (`MetaObject`): its own level plus the levels of
all ancestors, most-derived first.  `parent_` is `some` of the chain
starting at the first ancestor. -/
structure MetaObject where
  level : ClassLevel
  ancestors : List ClassLevel
deriving DecidableEq, Repr

/-- The parent descriptor (`MetaObject::parent`). -/
def MetaObject.parent (m : MetaObject) : Option MetaObject :=
  match m.ancestors with
  | [] => none
  | a :: rest => some ⟨a, rest⟩

/-- Embeds `std::find_if` over a name list: first match by name equality. -/
def findName (names : List String) (n : String) : Option String :=
  names.find? (fun x => n = x)

/-- Embeds `MetaObject::findMethod` restricted to a list of levels: search the
current level's methods, recurse into the parent on miss. -/
def findMethodL : ClassLevel → List ClassLevel → String → Option String
  | lvl, anc, n =>
    match findName lvl.methods n with
    | some s => some s
    | none =>
      match anc with
      | [] => none
      | a :: rest => findMethodL a rest n

/-- Embeds `MetaObject::findMethod`. -/
def MetaObject.findMethod (m : MetaObject) (n : String) : Option String :=
  findMethodL m.level m.ancestors n

/-- Embeds `MetaObject::findSignal` restricted to a list of levels. -/
def findSignalL : ClassLevel → List ClassLevel → String → Option String
  | lvl, anc, n =>
    match findName lvl.signals n with
    | some s => some s
    | none =>
      match anc with
      | [] => none
      | a :: rest => findSignalL a rest n

/-- Embeds `MetaObject::findSignal`. -/
def MetaObject.findSignal (m : MetaObject) (n : String) : Option String :=
  findSignalL m.level m.ancestors n

/-- Embeds `MetaObject::findProperty` restricted to a list of levels. -/
def findPropertyL : ClassLevel → List ClassLevel → String → Option MetaProperty
  | lvl, anc, n =>
    match lvl.properties.find? (fun p => n = p.name) with
    | some p => some p
    | none =>
      match anc with
      | [] => none
      | a :: rest => findPropertyL a rest n

/-- Embeds `MetaObject::findProperty`. -/
def MetaObject.findProperty (m : MetaObject) (n : String) : Option MetaProperty :=
  findPropertyL m.level m.ancestors n

/-- The descriptors reachable from a list of levels: `⟨a₁, rest₁⟩`,
`⟨a₂, rest₂⟩`, ... — the chain the `while (current)` loop of
`MetaObject::inherits` walks. -/
def chainOf : List ClassLevel → List MetaObject
  | [] => []
  | a :: rest => ⟨a, rest⟩ :: chainOf rest

/-- The strict-ancestor chain of a descriptor: every descriptor the
parent chain passes through, excluding the descriptor itself. -/
def MetaObject.ancestorChain (m : MetaObject) : List MetaObject :=
  chainOf m.ancestors

/-- Embeds `MetaObject::inherits` (`meta_object.cpp`): null argument is false;
`this == metaObject` is true; otherwise walk `parent_` pointers
comparing for identity. -/
def MetaObject.inherits (m : MetaObject) (other : Option MetaObject) : Bool :=
  match other with
  | none => false
  | some o => m = o || m.ancestorChain.contains o

/-! ## Connection manager (`connection_manager.hpp` / `connection_manager.cpp`)

Objects are identified by their address, modelled as a `Nat` id; a
nullable object pointer is an `Option`.  The connection table
`connections_ : unordered_map<const CObject*, vector<Connection>>` is an
association list keyed by sender id (`tableSet` keeps keys unique, as a
map does). -/

/-- Delivery modes (`connection_types.hpp`). -/
inductive ConnectionType where
  | kAutoConnection
  | kDirectConnection
  | kQueuedConnection
  | kBlockingConnection
deriving DecidableEq, Repr

/-- A connection record (`struct Connection` in `connection_manager.hpp`). -/
structure Connection where
  sender : Nat
  signal : String
  receiver : Nat
  slot : String
  type : ConnectionType
  enabled : Bool
deriving DecidableEq, Repr

/-- Embeds `Connection::operator==`: identity is the four-tuple
(sender, signal, receiver, slot); mode and enabled flag are ignored. -/
def Connection.sameIdentity (a b : Connection) : Bool :=
  a.sender = b.sender && a.signal = b.signal && a.receiver = b.receiver && a.slot = b.slot

/-- The connection table `connections_`. -/
abbrev ConnTable := List (Nat × List Connection)

/-- Embeds `connections_.find(k)`. -/
def tableFind (t : ConnTable) (k : Nat) : Option (List Connection) :=
  (t.find? (fun e => e.1 = k)).map (·.2)

/-- Store a bucket under key `k`: replace the existing entry or append a
new one (`connections_[k] = l` / mutation through the iterator). -/
def tableSet (t : ConnTable) (k : Nat) (l : List Connection) : ConnTable :=
  if (t.find? (fun e => e.1 = k)).isSome then
    t.map (fun e => if e.1 = k then (k, l) else e)
  else
    t ++ [(k, l)]

/-- All connections currently in the table, bucket order preserved. -/
def tableConns (t : ConnTable) : List Connection :=
  t.flatMap (·.2)

/-- The table's structural invariant, maintained by `connect`: every
connection is stored in the bucket of its own sender. -/
def TableWF (t : ConnTable) : Prop :=
  ∀ e ∈ t, ∀ c ∈ e.2, c.sender = e.1

instance : DecidablePred TableWF := fun t =>
  inferInstanceAs (Decidable (∀ e ∈ t, ∀ c ∈ e.2, c.sender = e.1))

/-- A (non-null) object reference as `ConnectionManager::connect` sees
it: an address plus the descriptor returned by its virtual
`metaObject()`. -/
structure ObjRef where
  id : Nat
  meta : MetaObject
deriving DecidableEq, Repr

/-- Embeds `ConnectionManager::connect`: reject null arguments, a missing
signal on the sender's chain, a missing slot on the receiver's chain, or
a duplicate four-tuple; otherwise append to the sender's bucket. -/
def ConnectionManager.connect (sender : Option ObjRef) (signal : Option String)
    (receiver : Option ObjRef) (slot : Option String) (type : ConnectionType)
    (t : ConnTable) : Bool × ConnTable :=
  match sender, signal, receiver, slot with
  | some s, some sig, some r, some sl =>
    match s.meta.findSignal sig with
    | none => (false, t)
    | some _ =>
      match r.meta.findMethod sl with
      | none => (false, t)
      | some _ =>
        let conn : Connection := ⟨s.id, sig, r.id, sl, type, true⟩
        match tableFind t s.id with
        | some connList =>
          if connList.any (fun existing => existing.sameIdentity conn) then
            (false, t)
          else
            (true, tableSet t s.id (connList ++ [conn]))
        | none => (true, tableSet t s.id [conn])
  | _, _, _, _ => (false, t)

/-- Embeds `ConnectionManager::disconnectAll`: drop the sender bucket of `obj`,
filter `obj` out as receiver from every other bucket, prune empty
buckets.  (A null `obj` is a no-op; callers below always pass an
object.) -/
def ConnectionManager.disconnectAll (obj : Nat) (t : ConnTable) : ConnTable :=
  let t1 := t.filter (fun e => e.1 ≠ obj)
  let t2 := t1.map (fun e => (e.1, e.2.filter (fun c => c.receiver ≠ obj)))
  t2.filter (fun e => ¬ e.2.isEmpty)

/-- Embeds `ConnectionManager::findConnections`: the sender's bucket filtered
to matching, enabled connections (a value snapshot, via `copy_if`). -/
def ConnectionManager.findConnections (t : ConnTable) (sender : Nat)
    (signal : String) : List Connection :=
  match tableFind t sender with
  | none => []
  | some connList => connList.filter (fun c => c.signal = signal && c.enabled)

/-- What one iteration of the `emitSignal` loop does with a connection:
`ConnectionManager::invokeSlot` looks the slot up on the receiver's
descriptor and, when found, invokes it synchronously on the emitting
thread.  `directInvoke` records such a synchronous call;
`postMetaCall` would record the queued alternative (a meta-call event
posted to the receiver's owning loop) — the observation type covers
both so that theorems can state which one the code performs. -/
inductive SlotAction where
  | directInvoke (receiver : Nat) (slot : String)
  | postMetaCall (receiver : Nat) (slot : String)
deriving DecidableEq, Repr

/-- Embeds `ConnectionManager::invokeSlot`: find the slot on the receiver's
descriptor and invoke it synchronously; the connection's `type` field is
never consulted.  `metaOf` gives each object's descriptor. -/
def ConnectionManager.invokeSlot (metaOf : Nat → MetaObject)
    (conn : Connection) : Option SlotAction :=
  match (metaOf conn.receiver).findMethod conn.slot with
  | some _ => some (.directInvoke conn.receiver conn.slot)
  | none => none

/-- Embeds `ConnectionManager::emitSignal`, observed as the list of slot
actions it performs: snapshot the matching enabled connections under the
lock, then for each snapshot entry with `enabled` run `invokeSlot`. -/
def ConnectionManager.emitSignal (metaOf : Nat → MetaObject) (t : ConnTable)
    (sender : Option Nat) (signal : Option String) : List SlotAction :=
  match sender, signal with
  | some s, some sig =>
    let activeConnections := ConnectionManager.findConnections t s sig
    activeConnections.foldl
      (fun acc conn =>
        if conn.enabled then
          acc ++ (ConnectionManager.invokeSlot metaOf conn).toList
        else acc) []
  | _, _ => []

/-- Embeds `ConnectionManager::emitSignal` with an explicit slot behaviour:
each invoked slot may mutate the connection table (connect/disconnect
from inside a slot); the invocation loop runs over the snapshot taken
before any slot ran.  Returns the final table and the connections
invoked, in invocation order. -/
def ConnectionManager.emitSignalRun (t : ConnTable) (sender : Option Nat)
    (signal : Option String) (handler : Connection → ConnTable → ConnTable) :
    ConnTable × List Connection :=
  match sender, signal with
  | some s, some sig =>
    let activeConnections := ConnectionManager.findConnections t s sig
    activeConnections.foldl
      (fun acc conn =>
        if conn.enabled then (handler conn acc.1, acc.2 ++ [conn]) else acc)
      (t, [])
  | _, _ => (t, [])

/-- Embeds `CObject::metacall` (`cobject.cpp`), the mode-resolving delivery
routine the repository also contains: resolve `auto` by thread identity,
invoke directly for `direct`, post a meta-call event for `queued`, and
for `blocking` degrade to direct on the same thread.  (Cross-thread
blocking posts and waits; the posted action is what we observe.)  This
routine has no callers in the repository. -/
def CObject.metacall (receiverMeta : MetaObject) (receiver : Nat)
    (senderThread receiverThread : Nat) (slot : Option String)
    (type : ConnectionType) : Option SlotAction :=
  match slot with
  | none => none
  | some sl =>
    let sameThread := senderThread = receiverThread
    let effectiveType :=
      if type = ConnectionType.kAutoConnection then
        if sameThread then ConnectionType.kDirectConnection
        else ConnectionType.kQueuedConnection
      else type
    match receiverMeta.findMethod sl with
    | none => none
    | some _ =>
      match effectiveType with
      | ConnectionType.kDirectConnection => some (.directInvoke receiver sl)
      | ConnectionType.kQueuedConnection => some (.postMetaCall receiver sl)
      | ConnectionType.kBlockingConnection =>
        if sameThread then some (.directInvoke receiver sl)
        else some (.postMetaCall receiver sl)
      | ConnectionType.kAutoConnection => none

/-! ## Object destruction (`CObject::~CObject`, `cobject.cpp`)

For the destruction cascade we model an object together with its
still-attached children as a finite tree of ids (ownership is a tree:
each child has one parent).  `~CObject` runs `disconnectAll(this)`, then
`setParent(nullptr)` (detach, which does not touch the connection
table), then repeatedly pops the *last* child off `children_` and
deletes it — i.e. children die in reverse insertion order, each running
the same destructor recursively. -/

/-- An object with its attached children, in insertion order. -/
inductive ObjTree where
  | node (id : Nat) (children : List ObjTree)

/-- The id of the destroyed object itself. -/
def ObjTree.rootId : ObjTree → Nat
  | .node i _ => i

/-- The observable steps of a destructor run, for stating the order
(a) disconnect-all, (b) detach from parent, (c) destroy children. -/
inductive DtorStep where
  | disconnectAll (id : Nat)
  | detach (id : Nat)
deriving DecidableEq, Repr

mutual
/-- Effect of `~CObject` on the connection table: `disconnectAll(this)`,
then delete the children from the back of the list forwards. -/
def destroyTable : ObjTree → ConnTable → ConnTable
  | .node i cs, t => destroyTableRev cs (ConnectionManager.disconnectAll i t)

/-- Delete a child list in reverse order: the `while (!children_.empty())`
loop pops `children_.back()` first, so the suffix dies before the head. -/
def destroyTableRev : List ObjTree → ConnTable → ConnTable
  | [], t => t
  | c :: rest, t => destroyTable c (destroyTableRev rest t)
end

mutual
/-- The trace of destructor steps of a destruction cascade. -/
def destroyTrace : ObjTree → List DtorStep
  | .node i cs => .disconnectAll i :: .detach i :: destroyTraceRev cs

/-- Trace of deleting a child list in reverse insertion order. -/
def destroyTraceRev : List ObjTree → List DtorStep
  | [] => []
  | c :: rest => destroyTraceRev rest ++ destroyTrace c
end

/-! ## Properties (`CObject::setProperty`, `cobject.cpp`, and the
`PROPERTY` macro of `cobject.hpp`)

`std::any` is modelled as a value from a tagged palette; the setter that
the `PROPERTY` macro generates performs `std::any_cast<type>(v)`, which
throws `std::bad_any_cast` when the value's tag differs from the
property's declared type.  `CObject::setProperty` calls the setter with
no handler, so the exception propagates out of `setProperty`; we model
this with `Except`. -/

/-- A `std::any` value over a palette of primitive types. -/
inductive CAny where
  | vInt (n : Int)
  | vString (s : String)
  | vBool (b : Bool)
deriving DecidableEq, Repr

/-- The type tag carried by a `std::any` value. -/
def CAny.tag : CAny → String
  | .vInt _ => "int"
  | .vString _ => "std::string"
  | .vBool _ => "bool"

/-- The exception a wrong-typed `std::any_cast` raises. -/
inductive CppException where
  | badAnyCast
deriving DecidableEq, Repr

/-- An object as `setProperty`/`property` see it: its class descriptor,
its typed member fields (written by the generated setters) and the
dynamic-property map. -/
structure PropObj where
  meta : MetaObject
  fields : List (String × CAny)
  dynamic : List (String × CAny)
deriving DecidableEq, Repr

/-- Store a value in an association map (`operator[]` assignment). -/
def assocSet (m : List (String × CAny)) (k : String) (v : CAny) :
    List (String × CAny) :=
  if (m.find? (fun e => e.1 = k)).isSome then
    m.map (fun e => if e.1 = k then (k, v) else e)
  else
    m ++ [(k, v)]

/-- The setter the `PROPERTY` macro generates:
`set##name(std::any_cast<type>(v))` — a wrong tag throws
`bad_any_cast`; on a matching tag the member is assigned when it
changed (the `if (name##_ != value)` guard; the change signal it then
emits is not part of the verified state). -/
def propertySet (o : PropObj) (p : MetaProperty) (v : CAny) :
    Except CppException PropObj :=
  if v.tag = p.typeName then
    if (o.fields.find? (fun e => e.1 = p.name)).map (·.2) = some v then
      .ok o
    else
      .ok { o with fields := assocSet o.fields p.name v }
  else
    .error .badAnyCast

/-- Embeds `CObject::setDynamicProperty`: unconditional store, returns true. -/
def setDynamicProperty (o : PropObj) (name : String) (v : CAny) :
    Bool × PropObj :=
  (true, { o with dynamic := assocSet o.dynamic name v })

/-- Embeds `CObject::setProperty`: on a typed-property hit call the generated
setter (uncaught exceptions escape) and return true; on a miss fall back
to the dynamic map and return its (always true) result. -/
def setProperty (o : PropObj) (name : String) (v : CAny) :
    Except CppException (Bool × PropObj) :=
  match o.meta.findProperty name with
  | some p =>
    match propertySet o p v with
    | .ok o' => .ok (true, o')
    | .error e => .error e
  | none => .ok (setDynamicProperty o name v)

/-! ## GLib timer source (`event_dispatcher_linux.cpp`)

The dispatcher's timer state is the ordered `timerList` of the
`GTimerSource`.  A pump (`EventDispatcherLinux::processEvents`) first
lets the GLib context run the source's `dispatch` callback
(`timerSourceDispatch`), which marks every due record fired and re-arms
it from `now`, and then walks the list delivering one `TimerEvent` per
fired record and clearing its flag.  Times are `int64_t` milliseconds,
modelled as `Int` (the arithmetic is far from the 64-bit boundary). -/

/-- Embeds `struct TimerInfo` of `event_dispatcher_linux.cpp`. -/
structure TimerInfo where
  id : Int
  interval : Int
  nextTimeout : Int
  receiver : Nat
  activated : Bool
deriving DecidableEq, Repr

/-- Embeds `timerSourceDispatch`: every record with `nextTimeout <= now` is
marked `activated` and re-armed to `now + interval`. -/
def timerSourceDispatch (now : Int) (l : List TimerInfo) : List TimerInfo :=
  l.map (fun t =>
    if t.nextTimeout ≤ now then
      { t with activated := true, nextTimeout := now + t.interval }
    else t)

/-- The delivery walk of `EventDispatcherLinux::processEvents`: for each
record in list order, if `activated`, clear the flag and send a
`TimerEvent(t.id)` to `t.receiver`.  Returns the updated list and the
delivered `(receiver, timer id)` events in delivery order. -/
def deliverActivated : List TimerInfo → List TimerInfo × List (Nat × Int)
  | [] => ([], [])
  | t :: rest =>
    let r := deliverActivated rest
    if t.activated then
      ({ t with activated := false } :: r.1, (t.receiver, t.id) :: r.2)
    else
      (t :: r.1, r.2)

/-- One dispatcher pump as it acts on the timer list: the GLib iteration
runs `timerSourceDispatch` at the current time, then the delivery walk
runs. -/
def timerPump (now : Int) (l : List TimerInfo) :
    List TimerInfo × List (Nat × Int) :=
  deliverActivated (timerSourceDispatch now l)

/-! ## Timer registration and id allocation (`CObject::startTimer`,
`cobject.cpp`; `EventDispatcherLinux::registerTimer`)

`startTimer` draws ids from `static std::atomic<int> nextTimerId{1}`
via `fetch_add`.  `int` is 32 bits on the supported targets, so the
counter is a `Nat` holding the register's unsigned bit pattern modulo
`2^32`, and the value `fetch_add` returns is its two's-complement
reading. -/

/-- Two's-complement reading of a 32-bit bit pattern. -/
def toSigned32 (n : Nat) : Int :=
  if n % 2 ^ 32 < 2 ^ 31 then ((n % 2 ^ 32 : Nat) : Int)
  else ((n % 2 ^ 32 : Nat) : Int) - 2 ^ 32

/-- Embeds `EventDispatcherLinux::registerTimer`: update the record with the
same id if present (re-arming it from `now`), otherwise append a fresh
record. -/
def registerTimer (now : Int) (timerId : Int) (interval : Int)
    (receiver : Nat) (l : List TimerInfo) : List TimerInfo :=
  if l.any (fun t => t.id = timerId) then
    l.map (fun t =>
      if t.id = timerId then
        { id := timerId, interval := interval, nextTimeout := now + interval,
          receiver := receiver, activated := false }
      else t)
  else
    l ++ [{ id := timerId, interval := interval, nextTimeout := now + interval,
            receiver := receiver, activated := false }]

/-- The state `CObject::startTimer` reads and writes: whether a
`CApplication` instance exists, whether it has a dispatcher, the
`nextTimerId` counter bits, and the dispatcher's timer list. -/
structure TimerWorld where
  hasApp : Bool
  hasDispatcher : Bool
  counter : Nat
  timers : List TimerInfo
deriving DecidableEq, Repr

/-- The process-start state of the allocator: `nextTimerId{1}`. -/
def initTimerWorld : TimerWorld :=
  { hasApp := true, hasDispatcher := true, counter := 1, timers := [] }

/-- Embeds `CObject::startTimer`: 0 on a negative interval, a missing
application, or a null dispatcher; otherwise
`nextTimerId.fetch_add(1)` names the id and the timer is registered
with the dispatcher. -/
def startTimer (now : Int) (interval : Int) (receiver : Nat)
    (w : TimerWorld) : Int × TimerWorld :=
  if interval < 0 then (0, w)
  else if ¬ w.hasApp then (0, w)
  else if ¬ w.hasDispatcher then (0, w)
  else
    let timerId := toSigned32 w.counter
    (timerId,
      { w with
        counter := (w.counter + 1) % 2 ^ 32,
        timers := registerTimer now timerId interval receiver w.timers })

/-- Runs `n` consecutive successful `startTimer` calls (fixed benign
arguments), for reasoning about the id sequence of one process. -/
def runStartTimers : Nat → TimerWorld → TimerWorld
  | 0, w => w
  | n + 1, w => (startTimer 0 5 1 (runStartTimers n w)).2

/-! ## Posted-event queue (`capplication.cpp`)

Events are heap objects identified by id; `postEvent` either rejects
(deleting the event) or enqueues; `processPostedEvents` swaps the queue
out and, for each entry, delivers to the (non-null) receiver and then
deletes the event.  `destroyed` records each `delete event` call and
`delivered` each `sendEvent` call, so the once-only properties are
statements about these histories. -/

/-- Embeds `struct PostedEvent` of `capplication.hpp` (receiver kept nullable
as in the struct; `postEvent` only ever enqueues non-null receivers). -/
structure PostedEvent where
  receiver : Option Nat
  event : Nat
  priority : Int
deriving DecidableEq, Repr

/-- The queue together with the observation history. -/
structure AppQueue where
  queue : List PostedEvent
  destroyed : List Nat
  delivered : List (Nat × Nat)
deriving DecidableEq, Repr

/-- Embeds `CApplication::postEvent`: with no instance, a null receiver or a
null event, delete the event (a no-op for a null event) and leave the
queue unchanged; otherwise enqueue `{receiver, event, 0}` (the wake-up
of the dispatcher does not touch this state). -/
def postEvent (hasInstance : Bool) (receiver : Option Nat)
    (event : Option Nat) (s : AppQueue) : AppQueue :=
  if ¬ hasInstance ∨ receiver = none ∨ event = none then
    { s with destroyed := s.destroyed ++ event.toList }
  else
    match receiver, event with
    | some r, some e => { s with queue := s.queue ++ [⟨some r, e, 0⟩] }
    | _, _ => s

/-- The loop body of `processPostedEvents` over the drained list: send
to the receiver when non-null, then always delete the event. -/
def processDrained (s : AppQueue) : List PostedEvent → AppQueue
  | [] => s
  | pe :: rest =>
    let s' :=
      match pe.receiver with
      | some r =>
        { s with delivered := s.delivered ++ [(r, pe.event)],
                 destroyed := s.destroyed ++ [pe.event] }
      | none => { s with destroyed := s.destroyed ++ [pe.event] }
    processDrained s' rest

/-- Embeds `CApplication::processPostedEvents`: nothing without an instance;
otherwise swap the queue out under the lock and process the drained
list. -/
def processPostedEvents (hasInstance : Bool) (s : AppQueue) : AppQueue :=
  if ¬ hasInstance then s
  else processDrained { s with queue := [] } s.queue

/-- A history of queue operations. -/
inductive QOp where
  | post (hasInstance : Bool) (receiver : Option Nat) (event : Option Nat)
  | process (hasInstance : Bool)
deriving DecidableEq, Repr

/-- Run a history of queue operations, oldest first. -/
def runQ : List QOp → AppQueue → AppQueue
  | [], s => s
  | .post hi r e :: rest, s => runQ rest (postEvent hi r e s)
  | .process hi :: rest, s => runQ rest (processPostedEvents hi s)

/-- How many times event `e` was passed to `postEvent` in a history. -/
def postCount (e : Nat) : List QOp → Nat
  | [] => 0
  | .post _ _ ev :: rest => (if ev = some e then 1 else 0) + postCount e rest
  | .process _ :: rest => postCount e rest

/-- Occurrences of event `e` in the pending queue. -/
def queueCount (s : AppQueue) (e : Nat) : Nat :=
  (s.queue.filter (fun pe => pe.event = e)).length

/-- How many times event `e` has been destroyed. -/
def destroyCount (s : AppQueue) (e : Nat) : Nat :=
  (s.destroyed.filter (fun x => x = e)).length

/-- How many times event `e` has been delivered (to any receiver). -/
def deliverCount (s : AppQueue) (e : Nat) : Nat :=
  (s.delivered.filter (fun d => d.2 = e)).length

/-- The empty initial queue state. -/
def initQueue : AppQueue := ⟨[], [], []⟩

/-! ## Parent/child graph (`CObject::setParent` / `addChild` /
`removeChild`, `cobject.cpp`)

The live objects form a world: per object its `parent_` pointer and its
ordered `children_` list.  `setParent` is a no-op on identity, otherwise
removes the object from the old parent's list, rewrites the pointer and
appends to the new parent's list; `addChild` refuses duplicates;
`removeChild` erases every occurrence (`std::remove`).  Construction
(`CObject::CObject(parent)`) starts from a null parent and then runs
`setParent(parent)`. -/

/-- An object's graph-relevant state. -/
structure ObjEntry where
  id : Nat
  parent : Option Nat
  children : List Nat
deriving DecidableEq, Repr

/-- The set of live objects (ids are unique: distinct objects have
distinct addresses). -/
abbrev ObjWorld := List ObjEntry

/-- Find the entry of an object. -/
def getEntry (w : ObjWorld) (i : Nat) : Option ObjEntry :=
  w.find? (fun e => e.id = i)

/-- Rewrite the entry of an object in place. -/
def setEntry (w : ObjWorld) (i : Nat) (f : ObjEntry → ObjEntry) : ObjWorld :=
  w.map (fun e => if e.id = i then f e else e)

/-- Embeds `CObject::addChild` on parent `p`: append `c` unless present. -/
def addChild (w : ObjWorld) (p c : Nat) : ObjWorld :=
  setEntry w p (fun e =>
    if c ∈ e.children then e else { e with children := e.children ++ [c] })

/-- Embeds `CObject::removeChild` on parent `p`: erase every occurrence. -/
def removeChild (w : ObjWorld) (p c : Nat) : ObjWorld :=
  setEntry w p (fun e => { e with children := e.children.filter (fun x => x ≠ c) })

/-- Embeds `CObject::setParent` on object `o` (which exists; a C++ caller holds
a valid `this`): no-op when the parent is unchanged, else detach from
the old parent, rewrite the pointer, attach to the new parent. -/
def setParent (w : ObjWorld) (o : Nat) (newParent : Option Nat) : ObjWorld :=
  match getEntry w o with
  | none => w
  | some e =>
    if e.parent = newParent then w
    else
      let w1 :=
        match e.parent with
        | some q => removeChild w q o
        | none => w
      let w2 := setEntry w1 o (fun e' => { e' with parent := newParent })
      match newParent with
      | some p => addChild w2 p o
      | none => w2

/-- Embeds `CObject::CObject(parent)`: a fresh object (its address is new, so
an existing id is impossible and left untouched) starts with a null
parent and no children, then runs `setParent(parent)`. -/
def newObj (w : ObjWorld) (i : Nat) (parent : Option Nat) : ObjWorld :=
  if (getEntry w i).isSome then w
  else setParent (w ++ [⟨i, none, []⟩]) i parent

/-- A graph operation: construct an object or reparent one.  C++ callers
only pass pointers to live objects, so an operation naming a
non-existent parent is skipped when run. -/
inductive GraphOp where
  | construct (i : Nat) (parent : Option Nat)
  | reparent (o : Nat) (parent : Option Nat)
deriving DecidableEq, Repr

/-- Whether the (optional) parent argument of an operation is a live
object (null is always fine). -/
def parentLive (w : ObjWorld) : Option Nat → Bool
  | none => true
  | some p => (getEntry w p).isSome

/-- Run one graph operation; operations whose parent argument is not a
live object (impossible in C++) are skipped. -/
def applyGraphOp (w : ObjWorld) : GraphOp → ObjWorld
  | .construct i parent => if parentLive w parent then newObj w i parent else w
  | .reparent o parent => if parentLive w parent then setParent w o parent else w

/-- Run a sequence of graph operations from a world. -/
def runGraph : List GraphOp → ObjWorld → ObjWorld
  | [], w => w
  | op :: rest, w => runGraph rest (applyGraphOp w op)

/-- The children list of object `i` ([] when `i` is not live). -/
def childrenOf (w : ObjWorld) (i : Nat) : List Nat :=
  ((getEntry w i).map (·.children)).getD []

/-- The parent pointer of object `i` (`none` when `i` is not live). -/
def parentOf (w : ObjWorld) (i : Nat) : Option (Option Nat) :=
  (getEntry w i).map (·.parent)

/-- The parent/child graph invariant: ids are unique, every children
list is duplicate-free, and `c` sits in `p`'s children list exactly when
`c` is live with parent pointer `p`. -/
def GraphInv (w : ObjWorld) : Prop :=
  (w.map (·.id)).Nodup ∧
  (∀ i, (childrenOf w i).Nodup) ∧
  (∀ p c, c ∈ childrenOf w p ↔ parentOf w c = some (some p))

/-! ## Concrete fixtures

A tiny class `Widget` with one int property, one slot and one signal,
and a derived class, used to instantiate the theorems. -/

/-- A class level with a property `value:int`, a slot `onChanged` and a
signal `valueChanged`. -/
def widgetLevel : ClassLevel :=
  ⟨"Widget", [⟨"value", "int"⟩], ["onChanged"], ["valueChanged"]⟩

/-- The `Widget` descriptor (derives directly from the root). -/
def widgetMeta : MetaObject := ⟨widgetLevel, []⟩

/-- A subclass level adding nothing. -/
def fancyLevel : ClassLevel := ⟨"FancyWidget", [], [], []⟩

/-- The `FancyWidget` descriptor, whose parent is `Widget`. -/
def fancyMeta : MetaObject := ⟨fancyLevel, [widgetLevel]⟩

/-- A `Widget` instance with `value = 42` and no dynamic properties. -/
def widgetObj : PropObj := ⟨widgetMeta, [("value", CAny.vInt 42)], []⟩

/-- Sender object `#1` of class `Widget`. -/
def senderRef : ObjRef := ⟨1, widgetMeta⟩

/-- Receiver object `#2` of class `Widget`. -/
def receiverRef : ObjRef := ⟨2, widgetMeta⟩

/-- The table after a successful queued-mode
`connect(#1, "valueChanged", #2, "onChanged", kQueuedConnection)`. -/
def queuedTable : ConnTable :=
  (ConnectionManager.connect (some senderRef) (some "valueChanged")
    (some receiverRef) (some "onChanged")
    ConnectionType.kQueuedConnection []).2

/-! ## Theorems -/

/-- C9, claim as stated is false. `inherits` also answers true on
the descriptor itself: `widgetMeta.inherits (some widgetMeta)` is true,
yet `widgetMeta` is not a strict ancestor of itself (its ancestor chain
is empty), so "true iff the parent chain passes through `other`"
(strictly) fails at this input. -/
theorem C9_counterexample :
    widgetMeta.inherits (some widgetMeta) = true ∧
    widgetMeta.ancestorChain = [] := by
  constructor <;> rfl

/-- C9 (amended). `d.inherits other` is true iff `other` is non-null
and is `d` itself or a descriptor on `d`'s strict ancestor chain; in
particular it is false when `other` is null. -/
theorem C9_theorem (d : MetaObject) (other : Option MetaObject) :
    d.inherits other = true ↔
      ∃ o, other = some o ∧ (o = d ∨ o ∈ d.ancestorChain) := by
  cases other with
  | none =>
    simp [MetaObject.inherits]
  | some o =>
    simp only [MetaObject.inherits, Bool.or_eq_true, decide_eq_true_eq,
      List.elem_iff, Option.some.injEq]
    constructor
    · rintro (h | h)
      · exact ⟨o, rfl, Or.inl h.symm⟩
      · exact ⟨o, rfl, Or.inr h⟩
    · rintro ⟨x, rfl, h | h⟩
      · exact Or.inl h.symm
      · exact Or.inr h

/-- C4, claim as stated is false. Setting the typed meta-property
`value:int` of a `Widget` to a string is not reported as a boolean
failure: the generated setter's `std::any_cast<int>` throws
`std::bad_any_cast`, the exception escapes `setProperty` (there is no
handler on the path), and no value-carrying return happens at all. -/
theorem C4_counterexample :
    setProperty widgetObj "value" (CAny.vString "x") =
      Except.error CppException.badAnyCast ∧
    (CAny.vString "x").tag ≠ "int" ∧
    widgetMeta.findProperty "value" = some ⟨"value", "int"⟩ := by
  refine ⟨rfl, ?_, rfl⟩
  decide

/-- C4 (amended). For every object and typed meta-property, calling
`setProperty` with a wrong-typed value makes `std::bad_any_cast` escape
the call (it is not reported as a boolean failure); whenever
`setProperty` does return normally — matching-type hit or
dynamic-property fallback — it returns true, so `false` is never
returned. -/
theorem C4_theorem (o : PropObj) (name : String) (v : CAny) :
    (∀ p, o.meta.findProperty name = some p → v.tag ≠ p.typeName →
      setProperty o name v = Except.error CppException.badAnyCast) ∧
    (∀ b o', setProperty o name v = Except.ok (b, o') → b = true) := by
  constructor
  · intro p hp hv
    simp only [setProperty, hp, propertySet, if_neg hv]
  · intro b o' h
    unfold setProperty at h
    cases hf : o.meta.findProperty name with
    | some p =>
      rw [hf] at h
      dsimp only at h
      cases hps : propertySet o p v with
      | ok o2 =>
        rw [hps] at h
        simp only [Except.ok.injEq, Prod.mk.injEq] at h
        exact h.1.symm
      | error e =>
        rw [hps] at h
        simp at h
    | none =>
      rw [hf] at h
      dsimp only at h
      unfold setDynamicProperty at h
      simp only [Except.ok.injEq, Prod.mk.injEq] at h
      exact h.1.symm

/-- C4 (amended), witness. The amended statement instantiated on a
concrete `Widget`: the wrong-typed set throws. -/
theorem C4_witness :
    setProperty widgetObj "value" (CAny.vString "x") =
      Except.error CppException.badAnyCast :=
  (C4_theorem widgetObj "value" (CAny.vString "x")).1
    ⟨"value", "int"⟩ rfl (by decide)

/-- Every action the `emitSignal` loop performs is a synchronous direct
invocation: `invokeSlot` never consults the connection's delivery mode
and never posts a meta-call event. -/
theorem emitSignal_only_direct (metaOf : Nat → MetaObject)
    (l : List Connection) (acc : List SlotAction)
    (hacc : ∀ a ∈ acc, ∃ r sl, a = SlotAction.directInvoke r sl) :
    ∀ a ∈ l.foldl
      (fun acc conn =>
        if conn.enabled then
          acc ++ (ConnectionManager.invokeSlot metaOf conn).toList
        else acc) acc,
      ∃ r sl, a = SlotAction.directInvoke r sl := by
  induction l generalizing acc with
  | nil => exact hacc
  | cons conn rest ih =>
    intro a ha
    refine ih _ ?_ a ha
    intro b hb
    dsimp only at hb
    by_cases he : conn.enabled
    · rw [if_pos he, List.mem_append] at hb
      rcases hb with hb | hb
      · exact hacc b hb
      · unfold ConnectionManager.invokeSlot at hb
        cases hm : (metaOf conn.receiver).findMethod conn.slot with
        | some s =>
          rw [hm] at hb
          simp only [Option.toList_some, List.mem_singleton] at hb
          exact ⟨conn.receiver, conn.slot, hb⟩
        | none =>
          rw [hm] at hb
          simp at hb
    · rw [if_neg he] at hb
      exact hacc b hb

/-- C1 (code bug). Delivery does not honor the connection mode:
whatever modes the connections carry, `ConnectionManager::emitSignal`
only ever invokes slots synchronously on the emitting thread (first
conjunct: every performed action is a `directInvoke`; no meta-call event
is ever posted).  In particular, emitting over a queued connection
invokes the slot directly (second conjunct).  The repository's own
`CObject::metacall` — which has no callers — would have posted a
meta-call event for exactly that connection (third conjunct), as the
claim requires. -/
theorem C1_theorem :
    (∀ (metaOf : Nat → MetaObject) (t : ConnTable) (sender : Option Nat)
        (signal : Option String) (a : SlotAction),
        a ∈ ConnectionManager.emitSignal metaOf t sender signal →
        ∃ r sl, a = SlotAction.directInvoke r sl) ∧
    ConnectionManager.emitSignal (fun _ => widgetMeta) queuedTable
        (some 1) (some "valueChanged") =
      [SlotAction.directInvoke 2 "onChanged"] ∧
    CObject.metacall widgetMeta 2 10 20 (some "onChanged")
        ConnectionType.kQueuedConnection =
      some (SlotAction.postMetaCall 2 "onChanged") := by
  refine ⟨?_, rfl, rfl⟩
  intro metaOf t sender signal a ha
  unfold ConnectionManager.emitSignal at ha
  cases sender with
  | none => simp at ha
  | some s =>
    cases signal with
    | none => simp at ha
    | some sig =>
      dsimp only at ha
      exact emitSignal_only_direct metaOf _ [] (by simp) a ha

/-- C1, witness. The no-posting statement applied to the concrete
queued connection: the single action performed there is the direct
invocation. -/
theorem C1_witness :
    ∃ r sl, SlotAction.directInvoke 2 "onChanged" =
      SlotAction.directInvoke r sl :=
  C1_theorem.1 (fun _ => widgetMeta) queuedTable (some 1)
    (some "valueChanged") (SlotAction.directInvoke 2 "onChanged")
    (by rw [C1_theorem.2.1]; exact List.mem_singleton.mpr rfl)

/-- C6. On a dispatcher pump at time `now`, starting from a timer
list with no stale fired marks (each pump clears them), every record
with `deadline ≤ now` is re-armed to `now + interval` — advancing from
`now`, not from the scheduled time — and exactly those records produce
exactly one timer event each, delivered to their receivers in record
insertion order; all other records are untouched. -/
theorem C6_theorem (now : Int) (l : List TimerInfo)
    (h : ∀ t ∈ l, t.activated = false) :
    (timerPump now l).1 = l.map (fun t =>
      if t.nextTimeout ≤ now then
        { t with nextTimeout := now + t.interval }
      else t) ∧
    (timerPump now l).2 = l.filterMap (fun t =>
      if t.nextTimeout ≤ now then some (t.receiver, t.id) else none) := by
  induction l with
  | nil => exact ⟨rfl, rfl⟩
  | cons t rest ih =>
    have ht : t.activated = false := h t (List.mem_cons_self t rest)
    obtain ⟨ih1, ih2⟩ := ih (fun x hx => h x (List.mem_cons_of_mem _ hx))
    unfold timerPump timerSourceDispatch at ih1 ih2 ⊢
    rw [List.map_cons]
    by_cases hle : t.nextTimeout ≤ now
    · rw [if_pos hle]
      unfold deliverActivated
      simp only [if_true]
      constructor
      · rw [List.map_cons, if_pos hle, ih1, ht]
      · rw [ih2, List.filterMap_cons]
        simp only [if_pos hle]
    · rw [if_neg hle]
      unfold deliverActivated
      simp only [ht, Bool.false_eq_true, if_false]
      constructor
      · rw [List.map_cons, if_neg hle, ih1]
      · rw [ih2, List.filterMap_cons]
        simp only [if_neg hle]

/-- C6, witness. The pump at `now = 100` over two fresh records, one
due (deadline 50, interval 30, receiver 7) and one not (deadline 200):
the due one fires once, is delivered to receiver 7, and is re-armed to
130 = 100 + 30; the other is untouched. -/
theorem C6_witness :
    (timerPump 100 [⟨1, 30, 50, 7, false⟩, ⟨2, 30, 200, 8, false⟩]).1 =
        [⟨1, 30, 130, 7, false⟩, ⟨2, 30, 200, 8, false⟩] ∧
    (timerPump 100 [⟨1, 30, 50, 7, false⟩, ⟨2, 30, 200, 8, false⟩]).2 =
        [(7, 1)] := by
  have h := C6_theorem 100 [⟨1, 30, 50, 7, false⟩, ⟨2, 30, 200, 8, false⟩]
    (by decide)
  rw [h.1, h.2]
  constructor <;> rfl

/-- The invocation list accumulated by the `emitSignalRun` loop: the
table mutations of the handler never feed back into it. -/
theorem emitRun_calls_aux (handler : Connection → ConnTable → ConnTable)
    (l : List Connection) (acc : ConnTable × List Connection) :
    (l.foldl
      (fun acc conn =>
        if conn.enabled then (handler conn acc.1, acc.2 ++ [conn]) else acc)
      acc).2 = acc.2 ++ l.filter (fun c => c.enabled) := by
  induction l generalizing acc with
  | nil => simp
  | cons conn rest ih =>
    rw [List.foldl_cons, List.filter_cons]
    by_cases he : conn.enabled
    · rw [if_pos he, ih]
      simp [he]
    · rw [if_neg he, ih]
      simp [he]

/-- C2. An emit invokes exactly the connections that match the
signal and are enabled at the moment of the emit, in the insertion
order of the sender's connection list: the invocation list equals the
pre-snapshot `findConnections` (first conjunct), which is the sender's
bucket filtered by signal and enabled flag (second conjunct) and hence a
sublist of the bucket in insertion order (third conjunct); the
invocation list is independent of what the invoked slots do to the
connection table, so connects/disconnects from inside a slot affect only
subsequent emissions (fourth conjunct); and when the bucket has no
duplicate connections each connection is invoked at most once (fifth
conjunct). -/
theorem C2_theorem (t : ConnTable) (s : Nat) (sig : String)
    (handler : Connection → ConnTable → ConnTable) :
    (ConnectionManager.emitSignalRun t (some s) (some sig) handler).2 =
      ConnectionManager.findConnections t s sig ∧
    ConnectionManager.findConnections t s sig =
      ((tableFind t s).getD []).filter
        (fun c => decide (c.signal = sig) && c.enabled) ∧
    List.Sublist
      ((ConnectionManager.emitSignalRun t (some s) (some sig) handler).2)
      ((tableFind t s).getD []) ∧
    (∀ handler₂,
      (ConnectionManager.emitSignalRun t (some s) (some sig) handler).2 =
      (ConnectionManager.emitSignalRun t (some s) (some sig) handler₂).2) ∧
    (((tableFind t s).getD []).Nodup →
      ((ConnectionManager.emitSignalRun t (some s) (some sig) handler).2).Nodup) := by
  have hfind : ConnectionManager.findConnections t s sig =
      ((tableFind t s).getD []).filter
        (fun c => decide (c.signal = sig) && c.enabled) := by
    unfold ConnectionManager.findConnections
    cases h : tableFind t s with
    | none => simp
    | some connList => simp
  have hrun : ∀ (h₂ : Connection → ConnTable → ConnTable),
      (ConnectionManager.emitSignalRun t (some s) (some sig) h₂).2 =
      ConnectionManager.findConnections t s sig := by
    intro h₂
    unfold ConnectionManager.emitSignalRun
    dsimp only
    rw [emitRun_calls_aux, List.nil_append, hfind, List.filter_filter]
    refine List.filter_congr ?_
    intro c _
    cases hc : c.enabled <;> simp [hc]
  refine ⟨hrun handler, hfind, ?_, fun h₂ => (hrun handler).trans (hrun h₂).symm, ?_⟩
  · rw [hrun handler, hfind]
    exact List.filter_sublist _
  · intro hnd
    rw [hrun handler, hfind]
    exact hnd.filter _

/-- C2, witness. The snapshot/order statement applied to the
concrete one-connection table: with a duplicate-free bucket the
invocation list of an emit is duplicate-free. -/
theorem C2_witness :
    ((ConnectionManager.emitSignalRun queuedTable (some 1)
      (some "valueChanged") (fun _ t => t)).2).Nodup :=
  (C2_theorem queuedTable 1 "valueChanged" (fun _ t => t)).2.2.2.2
    (by decide)

/-- Auxiliary for `tableFind_tableSet_self`: rewriting the bucket of an
existing key `k` in place makes looking `k` up yield the new bucket. -/
theorem find_set_aux (k : Nat) (l : List Connection) :
    ∀ t : ConnTable, (t.find? (fun e => e.1 = k)).isSome →
      ((t.map (fun e => if e.1 = k then (k, l) else e)).find?
        (fun e => e.1 = k)).map (·.2) = some l := by
  intro t
  induction t with
  | nil => intro hs; simp at hs
  | cons a rest ih =>
    intro hs
    by_cases ha : a.1 = k
    · simp [List.find?_cons, ha]
    · simp only [List.find?_cons, decide_eq_false ha] at hs
      simp only [List.map_cons, if_neg ha, List.find?_cons, decide_eq_false ha]
      exact ih hs

/-- Auxiliary for `tableFind_tableSet_ne`: rewriting key `k`'s bucket in
place leaves the lookup of a different key `k'` unchanged. -/
theorem find_set_aux_ne (k k' : Nat) (l : List Connection) (hkk : k' ≠ k) :
    ∀ t : ConnTable,
      ((t.map (fun e => if e.1 = k then (k, l) else e)).find?
        (fun e => e.1 = k')).map (·.2) =
      (t.find? (fun e => e.1 = k')).map (·.2) := by
  intro t
  induction t with
  | nil => rfl
  | cons a rest ih =>
    by_cases ha : a.1 = k
    · have h1 : ¬((k, l).1 = k') := fun hh => hkk hh.symm
      have h2 : ¬(a.1 = k') := fun hh => hkk (hh.symm.trans ha)
      simp only [List.map_cons, if_pos ha, List.find?_cons,
        decide_eq_false h1, decide_eq_false h2]
      exact ih
    · cases hd : decide (a.1 = k') with
      | true => simp only [List.map_cons, if_neg ha, List.find?_cons, hd]
      | false =>
        simp only [List.map_cons, if_neg ha, List.find?_cons, hd]
        exact ih

/-- Looking up the key just stored by `tableSet` yields the stored
bucket. -/
theorem tableFind_tableSet_self (t : ConnTable) (k : Nat)
    (l : List Connection) : tableFind (tableSet t k l) k = some l := by
  unfold tableSet tableFind
  by_cases hs : ((t.find? (fun e => e.1 = k)).isSome : Prop)
  · rw [if_pos hs]
    exact find_set_aux k l t hs
  · rw [if_neg hs, List.find?_append]
    rw [Option.not_isSome_iff_eq_none] at hs
    rw [hs]
    simp [List.find?_cons]

/-- Looking up a different key after `tableSet` is unchanged. -/
theorem tableFind_tableSet_ne (t : ConnTable) (k k' : Nat)
    (l : List Connection) (h : k' ≠ k) :
    tableFind (tableSet t k l) k' = tableFind t k' := by
  unfold tableSet tableFind
  by_cases hs : ((t.find? (fun e => e.1 = k)).isSome : Prop)
  · rw [if_pos hs]
    exact find_set_aux_ne k k' l h t
  · rw [if_neg hs, List.find?_append]
    have hkk' : ¬((k, l).1 = k') := fun hh => h hh.symm
    have : List.find? (fun e => decide (e.1 = k')) [(k, l)] = none := by
      simp [List.find?_cons, decide_eq_false hkk']
    rw [this]
    simp

/-- C5. `connect` succeeds exactly when all four arguments are
non-null, the signal exists on the sender's class chain, the slot exists
on the receiver's class chain, and no connection with the same
four-tuple is present (second conjunct); on failure the connection table
is untouched (first conjunct); on success the new connection — enabled,
carrying the requested mode — is appended at the end of the sender's
outgoing bucket and every other bucket is untouched (third conjunct). -/
theorem C5_theorem (sender : Option ObjRef) (signal : Option String)
    (receiver : Option ObjRef) (slot : Option String)
    (ct : ConnectionType) (t : ConnTable) :
    ((ConnectionManager.connect sender signal receiver slot ct t).1 = false →
      (ConnectionManager.connect sender signal receiver slot ct t).2 = t) ∧
    ((ConnectionManager.connect sender signal receiver slot ct t).1 = true ↔
      ∃ s sig r sl, sender = some s ∧ signal = some sig ∧
        receiver = some r ∧ slot = some sl ∧
        (s.meta.findSignal sig).isSome = true ∧
        (r.meta.findMethod sl).isSome = true ∧
        ¬ ((tableFind t s.id).getD []).any
            (fun e => e.sameIdentity ⟨s.id, sig, r.id, sl, ct, true⟩) = true) ∧
    (∀ s sig r sl, sender = some s → signal = some sig → receiver = some r →
      slot = some sl →
      (ConnectionManager.connect sender signal receiver slot ct t).1 = true →
      tableFind (ConnectionManager.connect sender signal receiver slot ct t).2
          s.id =
        some (((tableFind t s.id).getD []) ++ [⟨s.id, sig, r.id, sl, ct, true⟩]) ∧
      ∀ k, k ≠ s.id →
        tableFind (ConnectionManager.connect sender signal receiver slot ct t).2
          k = tableFind t k) := by
  obtain ⟨s, rfl⟩ | hnos : (∃ s, sender = some s) ∨
      (ConnectionManager.connect sender signal receiver slot ct t =
        (false, t) ∧ sender = none) := by
    cases sender with
    | some s => exact Or.inl ⟨s, rfl⟩
    | none => exact Or.inr ⟨rfl, rfl⟩
  case inr =>
    obtain ⟨heq, rfl⟩ := hnos
    rw [heq]
    refine ⟨fun _ => rfl, ?_, ?_⟩
    · simp
    · intro s sig r sl hs
      cases hs
  obtain ⟨sig, rfl⟩ | hnos : (∃ sig, signal = some sig) ∨
      (ConnectionManager.connect (some s) signal receiver slot ct t =
        (false, t) ∧ signal = none) := by
    cases signal with
    | some sig => exact Or.inl ⟨sig, rfl⟩
    | none => exact Or.inr ⟨by cases receiver <;> cases slot <;> rfl, rfl⟩
  case inr =>
    obtain ⟨heq, rfl⟩ := hnos
    rw [heq]
    refine ⟨fun _ => rfl, ?_, ?_⟩
    · simp
    · intro s' sig r sl _ hs
      cases hs
  obtain ⟨r, rfl⟩ | hnos : (∃ r, receiver = some r) ∨
      (ConnectionManager.connect (some s) (some sig) receiver slot ct t =
        (false, t) ∧ receiver = none) := by
    cases receiver with
    | some r => exact Or.inl ⟨r, rfl⟩
    | none => exact Or.inr ⟨by cases slot <;> rfl, rfl⟩
  case inr =>
    obtain ⟨heq, rfl⟩ := hnos
    rw [heq]
    refine ⟨fun _ => rfl, ?_, ?_⟩
    · simp
    · intro s' sig' r sl _ _ hs
      cases hs
  obtain ⟨sl, rfl⟩ | hnos : (∃ sl, slot = some sl) ∨
      (ConnectionManager.connect (some s) (some sig) (some r) slot ct t =
        (false, t) ∧ slot = none) := by
    cases slot with
    | some sl => exact Or.inl ⟨sl, rfl⟩
    | none => exact Or.inr ⟨rfl, rfl⟩
  case inr =>
    obtain ⟨heq, rfl⟩ := hnos
    rw [heq]
    refine ⟨fun _ => rfl, ?_, ?_⟩
    · simp
    · intro s' sig' r' sl _ _ _ hs
      cases hs
  -- all four arguments are non-null
  unfold ConnectionManager.connect
  dsimp only
  cases hsg : s.meta.findSignal sig with
  | none =>
    refine ⟨fun _ => rfl, ?_, ?_⟩
    · refine iff_of_false (by simp) ?_
      rintro ⟨s', sig', r', sl', hs', hsig', hr', hsl', hfs, _⟩
      cases hs'; cases hsig'; cases hr'; cases hsl'
      rw [hsg] at hfs
      simp at hfs
    · intro s' sig' r' sl' hs' hsig' hr' hsl' hok
      cases hok
  | some ms =>
    cases hmt : r.meta.findMethod sl with
    | none =>
      refine ⟨fun _ => rfl, ?_, ?_⟩
      · refine iff_of_false (by simp) ?_
        rintro ⟨s', sig', r', sl', hs', hsig', hr', hsl', _, hfm, _⟩
        cases hs'; cases hsig'; cases hr'; cases hsl'
        rw [hmt] at hfm
        simp at hfm
      · intro s' sig' r' sl' hs' hsig' hr' hsl' hok
        cases hok
    | some mm =>
      cases hb : tableFind t s.id with
      | some connList =>
        dsimp only
        by_cases hdup : (connList.any
            (fun e => e.sameIdentity ⟨s.id, sig, r.id, sl, ct, true⟩) : Prop)
        · rw [if_pos hdup]
          refine ⟨fun _ => rfl, ?_, ?_⟩
          · refine iff_of_false (by simp) ?_
            rintro ⟨s', sig', r', sl', hs', hsig', hr', hsl', _, _, hnodup⟩
            cases hs'; cases hsig'; cases hr'; cases hsl'
            rw [hb] at hnodup
            exact hnodup hdup
          · intro s' sig' r' sl' hs' hsig' hr' hsl' hok
            cases hok
        · rw [if_neg hdup]
          refine ⟨?_, ?_, ?_⟩
          · intro hfalse
            cases hfalse
          · refine iff_of_true rfl
              ⟨s, sig, r, sl, rfl, rfl, rfl, rfl, by simp [hsg],
                by simp [hmt], by rw [hb]; exact hdup⟩
          · intro s' sig' r' sl' hs' hsig' hr' hsl' _
            cases hs'; cases hsig'; cases hr'; cases hsl'
            refine ⟨?_, ?_⟩
            · rw [hb]
              exact tableFind_tableSet_self t s.id _
            · intro k hk
              exact tableFind_tableSet_ne t s.id k _ hk
      | none =>
        dsimp only
        refine ⟨?_, ?_, ?_⟩
        · intro hfalse
          cases hfalse
        · refine iff_of_true rfl
            ⟨s, sig, r, sl, rfl, rfl, rfl, rfl, by simp [hsg],
              by simp [hmt], by rw [hb]; simp⟩
        · intro s' sig' r' sl' hs' hsig' hr' hsl' _
          cases hs'; cases hsig'; cases hr'; cases hsl'
          refine ⟨?_, ?_⟩
          · rw [hb]
            exact tableFind_tableSet_self t s.id _
          · intro k hk
            exact tableFind_tableSet_ne t s.id k _ hk

/-- C5, witness. The success/append statement applied to the
concrete `Widget` connection: connecting `#1.valueChanged` to
`#2.onChanged` into the empty table succeeds and yields exactly that
one-connection bucket. -/
theorem C5_witness :
    tableFind (ConnectionManager.connect (some senderRef)
        (some "valueChanged") (some receiverRef) (some "onChanged")
        ConnectionType.kQueuedConnection []).2 senderRef.id =
      some [⟨senderRef.id, "valueChanged", receiverRef.id, "onChanged",
        ConnectionType.kQueuedConnection, true⟩] :=
  ((C5_theorem (some senderRef) (some "valueChanged") (some receiverRef)
      (some "onChanged") ConnectionType.kQueuedConnection []).2.2
    senderRef "valueChanged" receiverRef "onChanged" rfl rfl rfl rfl
    (by decide)).1

/-- Deleting a child-list trace in reverse insertion order, flattened. -/
theorem destroyTraceRev_eq (cs : List ObjTree) :
    destroyTraceRev cs = (cs.reverse).flatMap destroyTrace := by
  induction cs with
  | nil => rfl
  | cons c rest ih =>
    rw [destroyTraceRev, ih, List.reverse_cons, List.flatMap_append]
    simp

/-- Membership after `disconnectAll`: the connection was already there,
in a bucket not keyed by `obj`, and does not target `obj`. -/
theorem disconnectAll_mem (i : Nat) (t : ConnTable) (c : Connection)
    (hc : c ∈ tableConns (ConnectionManager.disconnectAll i t)) :
    ∃ e ∈ t, c ∈ e.2 ∧ e.1 ≠ i ∧ c.receiver ≠ i := by
  unfold tableConns ConnectionManager.disconnectAll at hc
  rw [List.mem_flatMap] at hc
  obtain ⟨e'', he'', hce⟩ := hc
  rw [List.mem_filter] at he''
  obtain ⟨he2, _⟩ := he''
  rw [List.mem_map] at he2
  obtain ⟨e', he', rfl⟩ := he2
  rw [List.mem_filter] at he'
  obtain ⟨hmem, hkey⟩ := he'
  dsimp only at hce
  rw [List.mem_filter] at hce
  obtain ⟨hcmem, hrecv⟩ := hce
  refine ⟨e', hmem, hcmem, ?_, ?_⟩
  · simpa using hkey
  · simpa using hrecv

/-- Embeds `disconnectAll` only removes connections. -/
theorem disconnectAll_subset (i : Nat) (t : ConnTable) (c : Connection)
    (hc : c ∈ tableConns (ConnectionManager.disconnectAll i t)) :
    c ∈ tableConns t := by
  obtain ⟨e, he, hce, _, _⟩ := disconnectAll_mem i t c hc
  exact List.mem_flatMap.mpr ⟨e, he, hce⟩

mutual
/-- The destruction cascade only removes connections. -/
theorem destroyTable_subset (tr : ObjTree) (t : ConnTable) (c : Connection)
    (hc : c ∈ tableConns (destroyTable tr t)) : c ∈ tableConns t :=
  match tr with
  | .node i cs =>
    disconnectAll_subset i t c (destroyTableRev_subset cs _ c hc)

/-- Deleting a child list only removes connections. -/
theorem destroyTableRev_subset (cs : List ObjTree) (t : ConnTable)
    (c : Connection) (hc : c ∈ tableConns (destroyTableRev cs t)) :
    c ∈ tableConns t :=
  match cs with
  | [] => hc
  | c' :: rest =>
    destroyTableRev_subset rest t c (destroyTable_subset c' _ c hc)
end

/-- C3. Destroying an object runs, in order, (a) disconnect-all for
the object, (b) detach from its parent, then (c) the destruction of its
still-attached children in reverse insertion order (first conjunct, the
destructor trace); and afterwards — for any well-formed starting table —
no connection in the connection table names the destroyed object as
sender or receiver (second conjunct). -/
theorem C3_theorem (i : Nat) (cs : List ObjTree) (t : ConnTable)
    (hwf : TableWF t) :
    destroyTrace (ObjTree.node i cs) =
      DtorStep.disconnectAll i :: DtorStep.detach i ::
        (cs.reverse).flatMap destroyTrace ∧
    ∀ c ∈ tableConns (destroyTable (ObjTree.node i cs) t),
      c.sender ≠ i ∧ c.receiver ≠ i := by
  constructor
  · rw [destroyTrace, destroyTraceRev_eq]
  · intro c hc
    rw [destroyTable] at hc
    have h1 : c ∈ tableConns (ConnectionManager.disconnectAll i t) :=
      destroyTableRev_subset cs _ c hc
    obtain ⟨e, he, hce, hkey, hrecv⟩ := disconnectAll_mem i t c h1
    exact ⟨(hwf e he c hce).symm ▸ hkey, hrecv⟩

/-- C3, witness. The destructor of object 1 with children 2 and 3
(inserted in that order), on a concrete well-formed table: the trace is
disconnect-all(1), detach(1), then the full destruction of child 3
before child 2. -/
theorem C3_witness :
    destroyTrace (ObjTree.node 1 [ObjTree.node 2 [], ObjTree.node 3 []]) =
      DtorStep.disconnectAll 1 :: DtorStep.detach 1 ::
        ([ObjTree.node 2 [], ObjTree.node 3 []].reverse).flatMap
          destroyTrace :=
  (C3_theorem 1 [ObjTree.node 2 [], ObjTree.node 3 []]
    [(1, [⟨1, "s", 2, "t", ConnectionType.kAutoConnection, true⟩]),
     (5, [⟨5, "s", 1, "t", ConnectionType.kAutoConnection, true⟩])]
    (by decide)).1

/-- A successful `startTimer` call: the returned id is the signed
reading of the counter, the counter advances by one modulo `2^32`, the
application state is untouched, and the timer is registered with the
dispatcher. -/
theorem startTimer_success (now interval : Int) (receiver : Nat)
    (w : TimerWorld) (hi : 0 ≤ interval) (ha : w.hasApp = true)
    (hd : w.hasDispatcher = true) :
    (startTimer now interval receiver w).1 = toSigned32 w.counter ∧
    (startTimer now interval receiver w).2.counter = (w.counter + 1) % 2 ^ 32 ∧
    (startTimer now interval receiver w).2.hasApp = true ∧
    (startTimer now interval receiver w).2.hasDispatcher = true ∧
    (startTimer now interval receiver w).2.timers =
      registerTimer now (toSigned32 w.counter) interval receiver w.timers := by
  unfold startTimer
  rw [if_neg (not_lt.mpr hi), ha, hd]
  simp

/-- The `nextTimerId` counter after `n` successful calls in one process:
the register holds `(1 + n) % 2^32`, and the world stays able to
allocate. -/
theorem runStartTimers_counter (n : Nat) :
    (runStartTimers n initTimerWorld).hasApp = true ∧
    (runStartTimers n initTimerWorld).hasDispatcher = true ∧
    (runStartTimers n initTimerWorld).counter = (1 + n) % 2 ^ 32 := by
  induction n with
  | zero =>
    refine ⟨rfl, rfl, ?_⟩
    rw [Nat.mod_eq_of_lt (by norm_num)]
    rfl
  | succ n ih =>
    obtain ⟨ha, hd, hc⟩ := ih
    have hs := startTimer_success 0 5 1 (runStartTimers n initTimerWorld)
      (by norm_num) ha hd
    refine ⟨hs.2.2.1, hs.2.2.2.1, ?_⟩
    show (startTimer 0 5 1 (runStartTimers n initTimerWorld)).2.counter = _
    rw [hs.2.1, hc]
    omega

/-- The signed reading of a small counter value is itself. -/
theorem toSigned32_small (k : Nat) (hk : k < 2 ^ 31) :
    toSigned32 k = (k : Int) := by
  unfold toSigned32
  rw [Nat.mod_eq_of_lt (lt_trans hk (by norm_num))]
  rw [if_pos hk]

/-- C7, claim as stated is false. `nextTimerId` is a 32-bit `int`,
so the "monotonic" counter wraps: the very first successful
`startTimer` call of a process returns id 1, and so does the
`2^32 + 1`-st successful call — the same id is returned twice within one
process lifetime. -/
theorem C7_counterexample :
    (startTimer 0 5 1 (runStartTimers 0 initTimerWorld)).1 = 1 ∧
    (startTimer 0 5 1 (runStartTimers (2 ^ 32) initTimerWorld)).1 = 1 := by
  constructor
  · obtain ⟨ha, hd, hc⟩ := runStartTimers_counter 0
    rw [(startTimer_success 0 5 1 _ (by norm_num) ha hd).1, hc]
    rw [Nat.mod_eq_of_lt (by norm_num)]
    rw [toSigned32_small 1 (by norm_num)]
    rfl
  · obtain ⟨ha, hd, hc⟩ := runStartTimers_counter (2 ^ 32)
    rw [(startTimer_success 0 5 1 _ (by norm_num) ha hd).1, hc]
    have : (1 + 2 ^ 32) % 2 ^ 32 = 1 := by
      rw [Nat.add_mod_right 1 (2 ^ 32), Nat.mod_eq_of_lt (by norm_num)]
    rw [this, toSigned32_small 1 (by norm_num)]
    rfl

/-- C7 (amended). `startTimer` returns 0 and leaves the world —
counter and registered timers alike — untouched when the interval is
negative, there is no application instance, or the application has no
dispatcher (first conjunct).  On success it returns the signed reading
of the 32-bit `nextTimerId` register and bumps the register modulo
`2^32` (second conjunct).  The ids of one process are positive and
pairwise distinct as long as fewer than `2^31 - 1` ids have been
allocated (third conjunct); beyond that the 32-bit counter leaves the
positive range and eventually repeats ids. -/
theorem C7_theorem :
    (∀ (now interval : Int) (receiver : Nat) (w : TimerWorld),
      interval < 0 ∨ w.hasApp = false ∨ w.hasDispatcher = false →
      startTimer now interval receiver w = (0, w)) ∧
    (∀ (now interval : Int) (receiver : Nat) (w : TimerWorld),
      0 ≤ interval → w.hasApp = true → w.hasDispatcher = true →
      (startTimer now interval receiver w).1 = toSigned32 w.counter ∧
      (startTimer now interval receiver w).2.counter =
        (w.counter + 1) % 2 ^ 32) ∧
    (∀ m n : Nat, m < n → n < 2 ^ 31 - 1 →
      (startTimer 0 5 1 (runStartTimers m initTimerWorld)).1 ≠
        (startTimer 0 5 1 (runStartTimers n initTimerWorld)).1 ∧
      0 < (startTimer 0 5 1 (runStartTimers m initTimerWorld)).1) := by
  refine ⟨?_, ?_, ?_⟩
  · intro now interval receiver w h
    unfold startTimer
    rcases h with h | h | h
    · rw [if_pos h]
    · rw [h]
      by_cases hi : interval < 0
      · rw [if_pos hi]
      · rw [if_neg hi]
        simp
    · rw [h]
      by_cases hi : interval < 0
      · rw [if_pos hi]
      · rw [if_neg hi]
        by_cases ha : w.hasApp = true <;> simp [ha]
  · intro now interval receiver w hi ha hd
    have hs := startTimer_success now interval receiver w hi ha hd
    exact ⟨hs.1, hs.2.1⟩
  · intro m n hmn hn
    have hm31 : 1 + m < 2 ^ 31 := by omega
    have hn31 : 1 + n < 2 ^ 31 := by omega
    obtain ⟨ham, hdm, hcm⟩ := runStartTimers_counter m
    obtain ⟨han, hdn, hcn⟩ := runStartTimers_counter n
    have hidm : (startTimer 0 5 1 (runStartTimers m initTimerWorld)).1 =
        ((1 + m : Nat) : Int) := by
      rw [(startTimer_success 0 5 1 _ (by norm_num) ham hdm).1, hcm]
      rw [Nat.mod_eq_of_lt (by omega)]
      exact toSigned32_small (1 + m) hm31
    have hidn : (startTimer 0 5 1 (runStartTimers n initTimerWorld)).1 =
        ((1 + n : Nat) : Int) := by
      rw [(startTimer_success 0 5 1 _ (by norm_num) han hdn).1, hcn]
      rw [Nat.mod_eq_of_lt (by omega)]
      exact toSigned32_small (1 + n) hn31
    rw [hidm, hidn]
    constructor
    · intro h
      rw [Nat.cast_inj] at h
      omega
    · positivity

/-- C7 (amended), witness. Distinctness and positivity at the first
two allocations of a process: the first id is not the second, via the
amended statement at `m = 0`, `n = 1`. -/
theorem C7_witness :
    (startTimer 0 5 1 (runStartTimers 0 initTimerWorld)).1 ≠
      (startTimer 0 5 1 (runStartTimers 1 initTimerWorld)).1 ∧
    0 < (startTimer 0 5 1 (runStartTimers 0 initTimerWorld)).1 :=
  C7_theorem.2.2 0 1 (by norm_num) (by norm_num)

/-- The processing loop over a drained list: the pending queue is
untouched, each drained entry's event is deleted exactly once, and at
most one delivery happens per drained entry. -/
theorem processDrained_counts (e : Nat) :
    ∀ (l : List PostedEvent) (s : AppQueue),
    (processDrained s l).queue = s.queue ∧
    destroyCount (processDrained s l) e =
      destroyCount s e + (l.filter (fun pe => pe.event = e)).length ∧
    deliverCount (processDrained s l) e ≤
      deliverCount s e + (l.filter (fun pe => pe.event = e)).length := by
  intro l
  induction l with
  | nil =>
    intro s
    exact ⟨rfl, by simp [processDrained], by simp [processDrained]⟩
  | cons pe rest ih =>
    intro s
    rw [processDrained]
    cases hr : pe.receiver with
    | some r =>
      obtain ⟨ihq, ihd, ihv⟩ := ih
        { s with delivered := s.delivered ++ [(r, pe.event)],
                 destroyed := s.destroyed ++ [pe.event] }
      refine ⟨ihq, ?_, ?_⟩
      · rw [ihd]
        simp only [destroyCount, List.filter_append, List.length_append,
          List.filter_cons]
        cases hpe : decide (pe.event = e) <;>
          simp [destroyCount, List.filter_append] <;> omega
      · refine le_trans ihv ?_
        simp only [deliverCount, List.filter_append, List.length_append,
          List.filter_cons]
        cases hpe : decide (pe.event = e) <;>
          [skip; simp_all] <;> simp_all [deliverCount, List.filter_append] <;>
          omega
    | none =>
      obtain ⟨ihq, ihd, ihv⟩ := ih
        { s with destroyed := s.destroyed ++ [pe.event] }
      refine ⟨ihq, ?_, ?_⟩
      · rw [ihd]
        simp only [destroyCount, List.filter_append, List.length_append,
          List.filter_cons]
        cases hpe : decide (pe.event = e) <;>
          simp [destroyCount, List.filter_append] <;> omega
      · refine le_trans ihv ?_
        simp only [deliverCount, List.filter_cons]
        cases hpe : decide (pe.event = e) <;> simp <;> omega

/-- Effect of one `postEvent` call on the per-event counters: the
destroyed-or-pending total rises by one exactly when this call posts the
event, and nothing is delivered. -/
theorem postEvent_counts (e : Nat) (hi : Bool) (r : Option Nat)
    (ev : Option Nat) (s : AppQueue) :
    destroyCount (postEvent hi r ev s) e + queueCount (postEvent hi r ev s) e =
      destroyCount s e + queueCount s e +
        (if ev = some e then 1 else 0) ∧
    deliverCount (postEvent hi r ev s) e = deliverCount s e ∧
    destroyCount s e ≤ destroyCount (postEvent hi r ev s) e := by
  cases ev with
  | none =>
    unfold postEvent
    rw [if_pos (Or.inr (Or.inr rfl))]
    simp [destroyCount, queueCount, deliverCount]
  | some x =>
    by_cases hrej : ¬ hi = true ∨ r = none ∨ (some x : Option Nat) = none
    · unfold postEvent
      rw [if_pos hrej]
      simp only [destroyCount, queueCount, deliverCount, Option.toList_some,
        List.filter_append, List.length_append, List.filter_cons,
        List.filter_nil]
      cases hd : decide (x = e) <;>
        cases hde : decide ((some x : Option Nat) = some e) <;>
        simp_all <;> omega
    · push_neg at hrej
      obtain ⟨hhi, hr, _⟩ := hrej
      obtain ⟨rr, rfl⟩ := Option.ne_none_iff_exists'.mp hr
      unfold postEvent
      rw [if_neg (by simp [hhi])]
      simp only [destroyCount, queueCount, deliverCount, List.filter_append,
        List.length_append, List.filter_cons, List.filter_nil]
      cases hd : decide (x = e) <;>
        cases hde : decide ((some x : Option Nat) = some e) <;>
        simp_all <;> omega

/-- Conservation along a history: every post of an event adds one to its
destroyed-or-pending total, and deliveries of it never outnumber its
posts. -/
theorem runQ_inv (e : Nat) : ∀ (ops : List QOp) (s : AppQueue),
    destroyCount (runQ ops s) e + queueCount (runQ ops s) e =
      destroyCount s e + queueCount s e + postCount e ops ∧
    deliverCount (runQ ops s) e + queueCount (runQ ops s) e ≤
      deliverCount s e + queueCount s e + postCount e ops := by
  intro ops
  induction ops with
  | nil => intro s; simp [runQ, postCount]
  | cons op rest ih =>
    intro s
    cases op with
    | post hi r ev =>
      rw [runQ, postCount]
      obtain ⟨ih1, ih2⟩ := ih (postEvent hi r ev s)
      obtain ⟨hpc, hpv, hmono⟩ := postEvent_counts e hi r ev s
      constructor
      · rw [ih1, hpc]
        omega
      · calc deliverCount (runQ rest (postEvent hi r ev s)) e +
              queueCount (runQ rest (postEvent hi r ev s)) e
            ≤ deliverCount (postEvent hi r ev s) e +
              queueCount (postEvent hi r ev s) e + postCount e rest := ih2
          _ ≤ _ := by rw [hpv]; omega
    | process hi =>
      rw [runQ, postCount]
      by_cases hhi : ¬ hi = true
      · have : processPostedEvents hi s = s := by
          unfold processPostedEvents
          rw [if_pos hhi]
        rw [this]
        obtain ⟨ih1, ih2⟩ := ih s
        exact ⟨ih1, ih2⟩
      · have hps : processPostedEvents hi s =
            processDrained { s with queue := [] } s.queue := by
          unfold processPostedEvents
          rw [if_neg hhi]
        obtain ⟨hq, hd, hv⟩ :=
          processDrained_counts e s.queue { s with queue := [] }
        obtain ⟨ih1, ih2⟩ := ih (processPostedEvents hi s)
        have hqc : queueCount (processPostedEvents hi s) e = 0 := by
          rw [hps]
          simp [queueCount, hq]
        have hdc : destroyCount (processPostedEvents hi s) e =
            destroyCount s e + queueCount s e := by
          rw [hps, hd]
          rfl
        have hvc : deliverCount (processPostedEvents hi s) e ≤
            deliverCount s e + queueCount s e := by
          rw [hps]
          exact hv
        constructor
        · rw [ih1, hqc, hdc]
          omega
        · calc deliverCount (runQ rest (processPostedEvents hi s)) e +
                queueCount (runQ rest (processPostedEvents hi s)) e
              ≤ deliverCount (processPostedEvents hi s) e +
                queueCount (processPostedEvents hi s) e + postCount e rest :=
                ih2
            _ ≤ _ := by rw [hqc]; omega

/-- C8. Null rejection: posting with no application instance or a
null receiver destroys the event immediately and leaves the queue
unchanged, and posting a null event is a complete no-op (first two
conjuncts).  Along any history of posts and processing runs from the
empty queue, each event's deletions-plus-pending-entries equal its
posts, and its deliveries never exceed its deletions (third conjunct);
hence an event posted exactly once is, once the queue no longer holds
it, destroyed exactly once and delivered at most once (fourth
conjunct). -/
theorem C8_theorem :
    (∀ (s : AppQueue) (hi : Bool) (r : Option Nat) (ev : Nat),
      ¬ hi = true ∨ r = none →
      postEvent hi r (some ev) s =
        { s with destroyed := s.destroyed ++ [ev] } ∧
      (postEvent hi r (some ev) s).queue = s.queue) ∧
    (∀ (s : AppQueue) (hi : Bool) (r : Option Nat),
      postEvent hi r none s = s) ∧
    (∀ (ops : List QOp) (e : Nat),
      destroyCount (runQ ops initQueue) e + queueCount (runQ ops initQueue) e =
        postCount e ops ∧
      deliverCount (runQ ops initQueue) e ≤
        destroyCount (runQ ops initQueue) e) ∧
    (∀ (ops : List QOp) (e : Nat), postCount e ops = 1 →
      queueCount (runQ ops initQueue) e = 0 →
      destroyCount (runQ ops initQueue) e = 1 ∧
      deliverCount (runQ ops initQueue) e ≤ 1) := by
  have hbase : ∀ (ops : List QOp) (e : Nat),
      destroyCount (runQ ops initQueue) e + queueCount (runQ ops initQueue) e =
        postCount e ops ∧
      deliverCount (runQ ops initQueue) e + queueCount (runQ ops initQueue) e ≤
        postCount e ops := by
    intro ops e
    obtain ⟨h1, h2⟩ := runQ_inv e ops initQueue
    constructor
    · rw [h1]
      simp [initQueue, destroyCount, queueCount]
    · refine le_trans h2 ?_
      simp [initQueue, destroyCount, queueCount, deliverCount]
  refine ⟨?_, ?_, ?_, ?_⟩
  · intro s hi r ev h
    have : (¬ hi = true ∨ r = none ∨ (some ev : Option Nat) = none) := by
      rcases h with h | h
      · exact Or.inl h
      · exact Or.inr (Or.inl h)
    unfold postEvent
    rw [if_pos this]
    exact ⟨rfl, rfl⟩
  · intro s hi r
    unfold postEvent
    rw [if_pos (Or.inr (Or.inr rfl))]
    simp
  · intro ops e
    obtain ⟨h1, h2⟩ := hbase ops e
    exact ⟨h1, by omega⟩
  · intro ops e hpost hq
    obtain ⟨h1, h2⟩ := hbase ops e
    rw [hpost] at h1 h2
    rw [hq] at h1 h2
    exact ⟨by omega, by omega⟩

/-- C8, witness. A history posting event 9 to receiver 5 once and
then pumping: the event ends destroyed exactly once and delivered at
most once. -/
theorem C8_witness :
    destroyCount (runQ [QOp.post true (some 5) (some 9), QOp.process true]
      initQueue) 9 = 1 ∧
    deliverCount (runQ [QOp.post true (some 5) (some 9), QOp.process true]
      initQueue) 9 ≤ 1 :=
  C8_theorem.2.2.2 [QOp.post true (some 5) (some 9), QOp.process true] 9
    (by decide) (by decide)

/-- Looking up after an in-place rewrite of object `i` by an
id-preserving update. -/
theorem getEntry_setEntry (i : Nat) (f : ObjEntry → ObjEntry)
    (hf : ∀ e, (f e).id = e.id) :
    ∀ (w : ObjWorld) (j : Nat),
    getEntry (setEntry w i f) j =
      if j = i then (getEntry w i).map f else getEntry w j := by
  intro w
  induction w with
  | nil =>
    intro j
    unfold getEntry setEntry
    simp only [List.map_nil, List.find?_nil, Option.map_none']
    split <;> rfl
  | cons a rest ih =>
    intro j
    unfold getEntry setEntry
    unfold getEntry setEntry at ih
    rw [List.map_cons]
    by_cases hai : a.id = i
    · rw [if_pos hai]
      by_cases hji : j = i
      · rw [if_pos hji, List.find?_cons, List.find?_cons]
        have h1 : decide ((f a).id = j) = true :=
          decide_eq_true (by rw [hf a, hai, hji])
        simp only [h1, decide_eq_true hai]
        rfl
      · rw [if_neg hji, List.find?_cons, List.find?_cons]
        have haj : ¬ a.id = j := fun hh => hji (hh.symm.trans hai)
        have h1 : decide ((f a).id = j) = false := by
          rw [hf a]; exact decide_eq_false haj
        simp only [h1, decide_eq_false haj]
        have h2 := ih j
        rw [if_neg hji] at h2
        exact h2
    · rw [if_neg hai]
      by_cases hji : j = i
      · rw [if_pos hji, List.find?_cons, List.find?_cons]
        have haj : ¬ a.id = j := fun hh => hai (hji ▸ hh)
        simp only [decide_eq_false haj, decide_eq_false hai]
        have h2 := ih j
        rw [if_pos hji] at h2
        exact h2
      · rw [if_neg hji, List.find?_cons, List.find?_cons]
        cases hd : decide (a.id = j) with
        | true => simp only [hd]
        | false =>
          simp only [hd]
          have h2 := ih j
          rw [if_neg hji] at h2
          exact h2

/-- An id-preserving in-place rewrite keeps the id column. -/
theorem setEntry_ids (w : ObjWorld) (i : Nat) (f : ObjEntry → ObjEntry)
    (hf : ∀ e, (f e).id = e.id) :
    (setEntry w i f).map (·.id) = w.map (·.id) := by
  unfold setEntry
  rw [List.map_map]
  refine List.map_congr_left ?_
  intro e _
  by_cases he : e.id = i <;> simp [he, hf]

/-- Looking up in a world extended by one fresh entry. -/
theorem getEntry_append (w : ObjWorld) (a : ObjEntry) (j : Nat) :
    getEntry (w ++ [a]) j =
      (getEntry w j).or (if a.id = j then some a else none) := by
  unfold getEntry
  rw [List.find?_append]
  congr 1
  rw [List.find?_cons]
  by_cases ha : a.id = j
  · rw [decide_eq_true ha, if_pos ha]
  · rw [decide_eq_false ha, if_neg ha]
    rfl

/-- Embeds `removeChild` acts on children lists: all occurrences of the child
are erased from `q`'s list, all other lists are untouched. -/
theorem childrenOf_removeChild (w : ObjWorld) (q c x : Nat) :
    childrenOf (removeChild w q c) x =
      if x = q then (childrenOf w q).filter (fun y => y ≠ c)
      else childrenOf w x := by
  unfold removeChild childrenOf
  rw [getEntry_setEntry q
    (fun e => { e with children := e.children.filter (fun y => y ≠ c) })
    (fun e => rfl) w x]
  by_cases hx : x = q
  · rw [if_pos hx, if_pos hx]
    cases getEntry w q <;> simp
  · rw [if_neg hx, if_neg hx]

/-- Embeds `removeChild` leaves every parent pointer unchanged. -/
theorem parentOf_removeChild (w : ObjWorld) (q c x : Nat) :
    parentOf (removeChild w q c) x = parentOf w x := by
  unfold removeChild parentOf
  rw [getEntry_setEntry q
    (fun e => { e with children := e.children.filter (fun y => y ≠ c) })
    (fun e => rfl) w x]
  by_cases hx : x = q
  · rw [if_pos hx, hx]
    cases getEntry w q <;> simp
  · rw [if_neg hx]

/-- Embeds `addChild` acts on children lists: the child is appended to `p`'s
list unless already present, all other lists are untouched. -/
theorem childrenOf_addChild (w : ObjWorld) (p c x : Nat)
    (hp : (getEntry w p).isSome = true) :
    childrenOf (addChild w p c) x =
      if x = p then
        (if c ∈ childrenOf w p then childrenOf w p
         else childrenOf w p ++ [c])
      else childrenOf w x := by
  unfold addChild childrenOf
  rw [getEntry_setEntry p
    (fun e => if c ∈ e.children then e
      else { e with children := e.children ++ [c] })
    (fun e => by dsimp only; split <;> rfl) w x]
  by_cases hx : x = p
  · rw [if_pos hx, if_pos hx]
    obtain ⟨e, he⟩ := Option.isSome_iff_exists.mp hp
    rw [he]
    dsimp
    split <;> simp_all
  · rw [if_neg hx, if_neg hx]

/-- Embeds `addChild` leaves every parent pointer unchanged. -/
theorem parentOf_addChild (w : ObjWorld) (p c x : Nat) :
    parentOf (addChild w p c) x = parentOf w x := by
  unfold addChild parentOf
  rw [getEntry_setEntry p
    (fun e => if c ∈ e.children then e
      else { e with children := e.children ++ [c] })
    (fun e => by dsimp only; split <;> rfl) w x]
  by_cases hx : x = p
  · rw [if_pos hx, hx]
    cases getEntry w p with
    | none => rfl
    | some e =>
      dsimp
      split <;> rfl
  · rw [if_neg hx]

/-- Rewriting an object's parent pointer in place: its pointer becomes
the new value (when the object is live), all others are unchanged. -/
theorem parentOf_setPtr (w : ObjWorld) (o : Nat) (p : Option Nat) (x : Nat) :
    parentOf (setEntry w o (fun e => { e with parent := p })) x =
      if x = o then (getEntry w o).map (fun _ => p) else parentOf w x := by
  unfold parentOf
  rw [getEntry_setEntry o (fun e => { e with parent := p })
    (fun e => rfl) w x]
  by_cases hx : x = o
  · rw [if_pos hx, if_pos hx]
    cases getEntry w o <;> simp
  · rw [if_neg hx, if_neg hx]

/-- Rewriting an object's parent pointer leaves all children lists
unchanged. -/
theorem childrenOf_setPtr (w : ObjWorld) (o : Nat) (p : Option Nat)
    (x : Nat) :
    childrenOf (setEntry w o (fun e => { e with parent := p })) x =
      childrenOf w x := by
  unfold childrenOf
  rw [getEntry_setEntry o (fun e => { e with parent := p })
    (fun e => rfl) w x]
  by_cases hx : x = o
  · rw [if_pos hx, hx]
    cases getEntry w o <;> simp
  · rw [if_neg hx]

/-- An id-preserving in-place rewrite keeps liveness of every object. -/
theorem isSome_setEntry (w : ObjWorld) (i : Nat) (f : ObjEntry → ObjEntry)
    (hf : ∀ e, (f e).id = e.id) (j : Nat) :
    (getEntry (setEntry w i f) j).isSome = (getEntry w j).isSome := by
  rw [getEntry_setEntry i f hf w j]
  by_cases hj : j = i
  · rw [if_pos hj, hj]
    cases getEntry w i <;> rfl
  · rw [if_neg hj]

/-- Unfolding of `setParent` in the non-trivial case (object live, parent
actually changing): detach from the old parent, rewrite the pointer,
attach to the new parent. -/
theorem setParent_eq (w : ObjWorld) (o : Nat) (p : Option Nat) (e : ObjEntry)
    (hgo : getEntry w o = some e) (hsame : ¬ e.parent = p) :
    setParent w o p =
      (match p with
       | some pp =>
         addChild
           (setEntry
             (match e.parent with
              | some q => removeChild w q o
              | none => w) o (fun e' => { e' with parent := p })) pp o
       | none =>
         setEntry
           (match e.parent with
            | some q => removeChild w q o
            | none => w) o (fun e' => { e' with parent := p })) := by
  unfold setParent
  rw [hgo]
  dsimp only
  rw [if_neg hsame]
  cases p <;> rfl

/-- Embeds `setParent` preserves the parent/child graph invariant, provided the
new parent is null or live (C++ callers always pass live objects). -/
theorem setParent_preserves (w : ObjWorld) (o : Nat) (p : Option Nat)
    (hinv : GraphInv w) (hlive : parentLive w p = true) :
    GraphInv (setParent w o p) := by
  obtain ⟨hids, hnodup, hmem⟩ := hinv
  cases hgo : getEntry w o with
  | none =>
    unfold setParent
    rw [hgo]
    exact ⟨hids, hnodup, hmem⟩
  | some e =>
    by_cases hsame : e.parent = p
    · unfold setParent
      rw [hgo]
      dsimp only
      rw [if_pos hsame]
      exact ⟨hids, hnodup, hmem⟩
    · rw [setParent_eq w o p e hgo hsame]
      have holive : (getEntry w o).isSome = true := by rw [hgo]; rfl
      have hpo : parentOf w o = some e.parent := by
        unfold parentOf
        rw [hgo]
        rfl
      -- the detached world
      have hw1 :
          ∃ w1 : ObjWorld,
            w1 = (match e.parent with
                  | some q => removeChild w q o
                  | none => w) ∧
            (∀ x, childrenOf w1 x =
              if e.parent = some x then
                (childrenOf w x).filter (fun y => y ≠ o)
              else childrenOf w x) ∧
            (∀ x, parentOf w1 x = parentOf w x) ∧
            (∀ x, (getEntry w1 x).isSome = (getEntry w x).isSome) ∧
            w1.map (·.id) = w.map (·.id) := by
        cases hep : e.parent with
        | none =>
          refine ⟨w, rfl, ?_, fun x => rfl, fun x => rfl, rfl⟩
          intro x
          rw [if_neg (by simp)]
        | some q =>
          refine ⟨removeChild w q o, rfl, ?_, ?_, ?_, ?_⟩
          · intro x
            rw [childrenOf_removeChild]
            by_cases hx : x = q
            · rw [if_pos hx,
                if_pos (show (some q : Option Nat) = some x by rw [hx]), hx]
            · rw [if_neg hx,
                if_neg (fun hh : (some q : Option Nat) = some x =>
                  hx (Option.some.inj hh).symm)]
          · intro x
            exact parentOf_removeChild w q o x
          · intro x
            exact isSome_setEntry w q
              (fun e' => { e' with
                children := e'.children.filter (fun y => y ≠ o) })
              (fun e' => rfl) x
          · exact setEntry_ids w q
              (fun e' => { e' with
                children := e'.children.filter (fun y => y ≠ o) })
              (fun e' => rfl)
      obtain ⟨w1, hw1eq, h1c, h1p, h1l, h1i⟩ := hw1
      rw [← hw1eq]
      -- the pointer-rewritten world
      have h2c : ∀ x,
          childrenOf (setEntry w1 o (fun e' => { e' with parent := p })) x =
            childrenOf w1 x := fun x => childrenOf_setPtr w1 o p x
      have h2p : ∀ x,
          parentOf (setEntry w1 o (fun e' => { e' with parent := p })) x =
            if x = o then some p else parentOf w x := by
        intro x
        rw [parentOf_setPtr]
        by_cases hx : x = o
        · rw [if_pos hx, if_pos hx]
          have : (getEntry w1 o).isSome = true := by rw [h1l o]; exact holive
          obtain ⟨e1, he1⟩ := Option.isSome_iff_exists.mp this
          rw [he1]
          rfl
        · rw [if_neg hx, if_neg hx]
          exact h1p x
      have h2l : ∀ x,
          (getEntry (setEntry w1 o (fun e' => { e' with parent := p })) x).isSome =
            (getEntry w x).isSome := by
        intro x
        rw [isSome_setEntry w1 o (fun e' => { e' with parent := p })
          (fun e' => rfl) x]
        exact h1l x
      have h2i :
          (setEntry w1 o (fun e' => { e' with parent := p })).map (·.id) =
            w.map (·.id) := by
        rw [setEntry_ids w1 o (fun e' => { e' with parent := p })
          (fun e' => rfl)]
        exact h1i
      -- membership in the original world, phrased for reuse
      have hmemo : ∀ P : Nat, o ∈ childrenOf w P ↔ e.parent = some P := by
        intro P
        rw [hmem P o, hpo]
        constructor
        · intro hh
          exact Option.some.inj hh
        · intro hh
          rw [hh]
      cases p with
      | none =>
        dsimp only
        refine ⟨h2i ▸ hids, ?_, ?_⟩
        · intro x
          rw [h2c x, h1c x]
          by_cases hx : e.parent = some x
          · rw [if_pos hx]
            exact (hnodup x).filter _
          · rw [if_neg hx]
            exact hnodup x
        · intro P c
          rw [h2c P, h1c P, h2p c]
          by_cases hco : c = o
          · subst hco
            rw [if_pos rfl]
            constructor
            · intro hc
              by_cases hP : e.parent = some P
              · rw [if_pos hP] at hc
                rw [List.mem_filter] at hc
                simp at hc
              · rw [if_neg hP] at hc
                exact absurd ((hmemo P).mp hc) hP
            · intro hc
              simp at hc
          · rw [if_neg hco]
            by_cases hP : e.parent = some P
            · rw [if_pos hP, List.mem_filter]
              rw [hmem P c]
              simp [hco]
            · rw [if_neg hP]
              exact hmem P c
      | some pp =>
        dsimp only
        have hpplive : (getEntry (setEntry w1 o
            (fun e' => { e' with parent := some pp })) pp).isSome = true := by
          rw [h2l pp]
          exact hlive
        have hnotin : o ∉ childrenOf (setEntry w1 o
            (fun e' => { e' with parent := some pp })) pp := by
          rw [h2c pp, h1c pp]
          by_cases hP : e.parent = some pp
          · rw [if_pos hP]
            intro hc
            rw [List.mem_filter] at hc
            simp at hc
          · rw [if_neg hP]
            intro hc
            exact hP ((hmemo pp).mp hc)
        refine ⟨?_, ?_, ?_⟩
        · have := setEntry_ids (setEntry w1 o
            (fun e' => { e' with parent := some pp })) pp
            (fun e' => if o ∈ e'.children then e'
              else { e' with children := e'.children ++ [o] })
            (fun e' => by dsimp only; split <;> rfl)
          unfold addChild
          rw [this, h2i]
          exact hids
        · intro x
          rw [childrenOf_addChild _ pp o x hpplive]
          by_cases hx : x = pp
          · rw [if_pos hx, if_neg hnotin]
            refine List.Nodup.append ?_ (List.nodup_singleton o) ?_
            · rw [h2c pp, h1c pp]
              by_cases hP : e.parent = some pp
              · rw [if_pos hP]
                exact (hnodup pp).filter _
              · rw [if_neg hP]
                exact hnodup pp
            · intro a ha hb
              rw [List.mem_singleton] at hb
              subst hb
              exact hnotin ha
          · rw [if_neg hx, h2c x, h1c x]
            by_cases hP : e.parent = some x
            · rw [if_pos hP]
              exact (hnodup x).filter _
            · rw [if_neg hP]
              exact hnodup x
        · intro P c
          rw [childrenOf_addChild _ pp o P hpplive]
          rw [parentOf_addChild]
          by_cases hco : c = o
          · rw [hco, h2p o, if_pos rfl]
            by_cases hP : P = pp
            · rw [hP, if_pos rfl, if_neg hnotin]
              simp
            · rw [if_neg hP, h2c P, h1c P]
              constructor
              · intro hc
                by_cases hPP : e.parent = some P
                · rw [if_pos hPP] at hc
                  rw [List.mem_filter] at hc
                  simp at hc
                · rw [if_neg hPP] at hc
                  exact absurd ((hmemo P).mp hc) hPP
              · intro hc
                have hppP : pp = P := Option.some.inj (Option.some.inj hc)
                exact absurd hppP.symm hP
          · rw [h2p c, if_neg hco]
            by_cases hP : P = pp
            · rw [hP, if_pos rfl, if_neg hnotin, List.mem_append,
                List.mem_singleton, h2c pp, h1c pp]
              constructor
              · intro hc
                rcases hc with hc | hc
                · by_cases hPP : e.parent = some pp
                  · rw [if_pos hPP] at hc
                    rw [List.mem_filter] at hc
                    exact (hmem pp c).mp hc.1
                  · rw [if_neg hPP] at hc
                    exact (hmem pp c).mp hc
                · exact absurd hc hco
              · intro hc
                left
                by_cases hPP : e.parent = some pp
                · rw [if_pos hPP, List.mem_filter]
                  exact ⟨(hmem pp c).mpr hc, by simp [hco]⟩
                · rw [if_neg hPP]
                  exact (hmem pp c).mpr hc
            · rw [if_neg hP, h2c P, h1c P]
              by_cases hPP : e.parent = some P
              · rw [if_pos hPP, List.mem_filter]
                rw [hmem P c]
                simp [hco]
              · rw [if_neg hPP]
                exact hmem P c

/-- Constructing a fresh object (null parent, no children, then
`setParent`) preserves the graph invariant. -/
theorem newObj_preserves (w : ObjWorld) (i : Nat) (parent : Option Nat)
    (hinv : GraphInv w) (hp : parentLive w parent = true) :
    GraphInv (newObj w i parent) := by
  obtain ⟨hids, hnodup, hmem⟩ := hinv
  unfold newObj
  by_cases hex : ((getEntry w i).isSome : Prop)
  · rw [if_pos hex]
    exact ⟨hids, hnodup, hmem⟩
  · rw [if_neg hex]
    rw [Option.not_isSome_iff_eq_none] at hex
    have hki : ∀ e ∈ w, ¬ e.id = i := by
      intro e he
      have := List.find?_eq_none.mp hex e he
      simpa using this
    have hcApp : ∀ x,
        childrenOf (w ++ [(⟨i, none, []⟩ : ObjEntry)]) x = childrenOf w x := by
      intro x
      unfold childrenOf
      rw [getEntry_append]
      cases hg : getEntry w x with
      | some e => rfl
      | none =>
        by_cases hix : i = x
        · rw [if_pos hix]
          rfl
        · rw [if_neg hix]
          rfl
    have hpApp : ∀ x,
        parentOf (w ++ [(⟨i, none, []⟩ : ObjEntry)]) x =
          (parentOf w x).or (if i = x then some none else none) := by
      intro x
      unfold parentOf
      rw [getEntry_append]
      cases hg : getEntry w x with
      | some e => rfl
      | none =>
        by_cases hix : i = x
        · rw [if_pos hix, if_pos hix]
          rfl
        · rw [if_neg hix, if_neg hix]
          rfl
    have hinv' : GraphInv (w ++ [(⟨i, none, []⟩ : ObjEntry)]) := by
      refine ⟨?_, ?_, ?_⟩
      · rw [List.map_append]
        refine List.Nodup.append hids (List.nodup_singleton i) ?_
        intro a ha hb
        simp only [List.map_cons, List.map_nil, List.mem_singleton] at hb
        subst hb
        rw [List.mem_map] at ha
        obtain ⟨e, he, heq⟩ := ha
        exact hki e he heq
      · intro x
        rw [hcApp x]
        exact hnodup x
      · intro P c
        rw [hcApp P, hpApp c]
        cases hgc : parentOf w c with
        | some v =>
          rw [show (some v).or (if i = c then some none else none) = some v
            from rfl, hmem P c, hgc]
        | none =>
          rw [Option.none_or]
          constructor
          · intro hc
            have := (hmem P c).mp hc
            rw [hgc] at this
            cases this
          · intro hc
            by_cases hic : i = c
            · rw [if_pos hic] at hc
              cases Option.some.inj hc
            · rw [if_neg hic] at hc
              cases hc
    have hlive' :
        parentLive (w ++ [(⟨i, none, []⟩ : ObjEntry)]) parent = true := by
      cases parent with
      | none => rfl
      | some pp =>
        show (getEntry (w ++ [(⟨i, none, []⟩ : ObjEntry)]) pp).isSome = true
        rw [getEntry_append]
        have hp' : (getEntry w pp).isSome = true := hp
        obtain ⟨e, he⟩ := Option.isSome_iff_exists.mp hp'
        rw [he]
        rfl
    exact setParent_preserves _ i parent hinv' hlive'

/-- Every single graph operation preserves the invariant. -/
theorem applyGraphOp_preserves (w : ObjWorld) (op : GraphOp)
    (hinv : GraphInv w) : GraphInv (applyGraphOp w op) := by
  cases op with
  | construct i parent =>
    show GraphInv (if parentLive w parent = true then newObj w i parent else w)
    by_cases hl : parentLive w parent = true
    · rw [if_pos hl]
      exact newObj_preserves w i parent hinv hl
    · rw [if_neg hl]
      exact hinv
  | reparent o parent =>
    show GraphInv
      (if parentLive w parent = true then setParent w o parent else w)
    by_cases hl : parentLive w parent = true
    · rw [if_pos hl]
      exact setParent_preserves w o parent hinv hl
    · rw [if_neg hl]
      exact hinv

/-- Any operation sequence preserves the invariant. -/
theorem runGraph_preserves : ∀ (ops : List GraphOp) (w : ObjWorld),
    GraphInv w → GraphInv (runGraph ops w) := by
  intro ops
  induction ops with
  | nil => intro w h; exact h
  | cons op rest ih =>
    intro w h
    exact ih (applyGraphOp w op) (applyGraphOp_preserves w op h)

/-- C10. Along every sequence of object constructions and
`setParent` calls from an empty world, the parent/child graph invariant
holds: ids are unique, no object appears twice in any children list, and
`c` sits in `p`'s children list exactly when `c`'s parent pointer is `p`
(first conjunct).  Moreover `setParent` to the object's current parent
is a complete no-op on the world (second conjunct). -/
theorem C10_theorem :
    (∀ ops : List GraphOp, GraphInv (runGraph ops [])) ∧
    (∀ (w : ObjWorld) (o : Nat) (e : ObjEntry),
      getEntry w o = some e → setParent w o e.parent = w) := by
  constructor
  · intro ops
    refine runGraph_preserves ops [] ⟨?_, ?_, ?_⟩
    · simp
    · intro x
      simp [childrenOf, getEntry]
    · intro P c
      simp [childrenOf, parentOf, getEntry]
  · intro w o e hgo
    unfold setParent
    rw [hgo]
    dsimp only
    rw [if_pos rfl]

/-- C10, witness. In the concrete world where object 2 is the child
of object 1, `setParent(2, its current parent 1)` changes nothing. -/
theorem C10_witness :
    setParent [⟨1, none, [2]⟩, ⟨2, some 1, []⟩] 2 (some 1) =
      [⟨1, none, [2]⟩, ⟨2, some 1, []⟩] :=
  C10_theorem.2 [⟨1, none, [2]⟩, ⟨2, some 1, []⟩] 2 ⟨2, some 1, []⟩
    (by decide)

end CodeKnife
